import Mathlib

/-!
Verification of the text-corruption engine and dataset assembler of the
ukr-document-OCR repository (`create_train_examples.py`).

Python strings are modelled as `List Char`.  The ambient random source
(`random.random`, `random.choice`, `random.randint`) is modelled as an
explicit oracle `RandGen` together with a draw counter that every primitive
advances by one, so that a fixed oracle makes every run deterministic and the
order in which rules consume draws is visible in the definitions.
`random.random()` draws are rationals (the engine only ever compares them
against thresholds, so `ℚ` is a faithful carrier for the comparisons);
`random.choice` / `random.randint` consume a raw natural draw and reduce it
modulo the size of the requested range, which is how a uniform draw over that
range is obtained from a uniform source.  `random.randint(a, b)` raises
`ValueError` in Python when `b < a`; the model returns `none` there, so
"the program never raises" becomes "the model never returns `none`".
-/

/-- The characters `str.splitlines` treats as line boundaries. -/
def isLineBreak (c : Char) : Bool :=
  c = '\n' || c = '\r' || c = '\x0b' || c = '\x0c' ||
  c = '\x1c' || c = '\x1d' || c = '\x1e' || c = '\x85' ||
  c = '\u2028' || c = '\u2029'

/-- Worker for `str.splitlines(keepends=True)`: `acc` holds the current line,
reversed.  A `\r\n` pair counts as a single boundary. -/
def splitlinesAux : List Char → List Char → List (List Char)
  | [], acc => if acc.isEmpty then [] else [acc.reverse]
  | [c], acc =>
    if isLineBreak c then [acc.reverse ++ [c]]
    else [(c :: acc).reverse]
  | c :: c2 :: rest, acc =>
    if c = '\r' then
      if c2 = '\n' then (acc.reverse ++ ['\r', '\n']) :: splitlinesAux rest []
      else (acc.reverse ++ ['\r']) :: splitlinesAux (c2 :: rest) []
    else if isLineBreak c then (acc.reverse ++ [c]) :: splitlinesAux (c2 :: rest) []
    else splitlinesAux (c2 :: rest) (c :: acc)

/-- Python `text.splitlines(keepends=True)`. -/
def pySplitlinesKeep (s : List Char) : List (List Char) :=
  splitlinesAux s []

/-- The characters `str.split()` (and `str.strip()`) treat as whitespace. -/
def isPySpace (c : Char) : Bool :=
  c = ' ' || c = '\t' || c = '\n' || c = '\r' || c = '\x0b' || c = '\x0c' ||
  c = '\x1c' || c = '\x1d' || c = '\x1e' || c = '\x1f' || c = '\x85' ||
  c = '\xa0' || c = '\u2028' || c = '\u2029'

/-- Worker for `str.split()` (split on whitespace runs, dropping empties);
`acc` holds the current word, reversed. -/
def splitWsAux : List Char → List Char → List (List Char)
  | [], acc => if acc.isEmpty then [] else [acc.reverse]
  | c :: rest, acc =>
    if isPySpace c then
      if acc.isEmpty then splitWsAux rest [] else acc.reverse :: splitWsAux rest []
    else splitWsAux rest (c :: acc)

/-- Python `line.split()` with no argument. -/
def pySplitWs (s : List Char) : List (List Char) :=
  splitWsAux s []

/-- Python `' '.join(words)`. -/
def joinSpace : List (List Char) → List Char
  | [] => []
  | [w] => w
  | w :: ws => w ++ ' ' :: joinSpace ws

/-- Python `'\n'.join(lines)`. -/
def joinNl : List (List Char) → List Char
  | [] => []
  | [l] => l
  | l :: ls => l ++ '\n' :: joinNl ls

/-- Python `s.split('\n')` (keeps empty pieces; `''.split('\n') == ['']`). -/
def pySplitNl : List Char → List (List Char)
  | [] => [[]]
  | c :: rest =>
    if c = '\n' then [] :: pySplitNl rest
    else
      match pySplitNl rest with
      | [] => [[c]]
      | h :: t => (c :: h) :: t

/-- Worker for `file.readlines()` on already-read text (universal newlines
have been translated to `\n` by the text-mode read, so lines end at `\n`). -/
def readlinesAux : List Char → List Char → List (List Char)
  | [], acc => if acc.isEmpty then [] else [acc.reverse]
  | c :: rest, acc =>
    if c = '\n' then (acc.reverse ++ ['\n']) :: readlinesAux rest []
    else readlinesAux rest (c :: acc)

/-- Python `file.readlines()` applied to the file's text content. -/
def pyReadlines (s : List Char) : List (List Char) :=
  readlinesAux s []

/-- Python `s.strip()`. -/
def pyStrip (s : List Char) : List Char :=
  ((s.dropWhile isPySpace).reverse.dropWhile isPySpace).reverse

/-- Python `re.sub(target, repl, s)` for a single-character literal pattern:
every occurrence of `target` is replaced by the (fixed) string `repl`. -/
def reSubChar (target : Char) (repl : List Char) (s : List Char) : List Char :=
  s.flatMap (fun c => if c = target then repl else [c])

/-- The ambient random source: `rand k` is the value of the `k`-th draw when
the `k`-th primitive call is `random.random()`, and `nat k` is the raw
natural draw the `k`-th call consumes when it is a `choice`/`randint`. -/
structure RandGen where
  rand : ℕ → ℚ
  nat : ℕ → ℕ

/-- `random.random()` returns a value in `[0, 1)`. -/
def ValidGen (g : RandGen) : Prop :=
  ∀ k, 0 ≤ g.rand k ∧ g.rand k < 1

/-- `random.choice(xs)`: a uniform index into `xs` obtained from the raw
draw.  Every call site in the engine passes a non-empty literal list, so the
default is never consulted. -/
def pyChoice {α : Type} [Inhabited α] (g : RandGen) (k : ℕ) (xs : List α) : α × ℕ :=
  (xs.getD (g.nat k % xs.length) default, k + 1)

/-- `random.randint(lo, hi)`: uniform on `lo..hi` inclusive; raises
(`none`) when `hi < lo`, exactly as Python does. -/
def pyRandint (g : RandGen) (k : ℕ) (lo hi : ℤ) : Option (ℤ × ℕ) :=
  if hi < lo then none
  else some (lo + (g.nat k : ℤ) % (hi - lo + 1), k + 1)

/-!
The corruption engine `make_dirty` (`create_train_examples.py`, lines 9-132).
-/

/-- The fixed, ordered character-substitution rule table of `make_dirty`
(source lines 17-79).  Each entry is the literal regex target character and
the literal `replace_variants` list it is paired with in the source; note
that from the fifth entry on, the *targets* are the Cyrillic letters
і (U+0456), о (U+043E), е (U+0435), а (U+0430), з (U+0437), т (U+0442),
я (U+044F), в (U+0432) and і again, while the candidates are ASCII. -/
def ruleTable : List (Char × List (List Char)) :=
  [ ('№', ["N", "N°", "Nº", "Ме", "Не",
                "Ле", "Н", "Но", "Ло",
                "Мо", "№"].map String.data),
    ('0', ["0", "O", "o"].map String.data),
    ('1', ["1", "I", "l", "i"].map String.data),
    ('2', ["2", "Z", "z"].map String.data),
    ('і', ["i", "I", "l", "1"].map String.data),
    ('о', ["o", "O", "0"].map String.data),
    ('е', ["e", "E", "3"].map String.data),
    ('а', ["a", "A", "4"].map String.data),
    ('з', ["s", "S", "5"].map String.data),
    ('т', ["t", "T", "7"].map String.data),
    ('я', ["g", "G", "9"].map String.data),
    ('в', ["b", "B", "8"].map String.data),
    ('і', ["l", "L", "1"].map String.data) ]

/-- One substitution rule: gate `random.random() < strength`; on fire, draw
one candidate with `random.choice` and substitute every occurrence of the
target in the line with it (source pattern at lines 17-19 and analogues). -/
def subRule (target : Char) (cands : List (List Char)) (st : ℚ)
    (line : List Char) (g : RandGen) (k : ℕ) : List Char × ℕ :=
  if g.rand k < st then
    let p := pyChoice g (k + 1) cands
    (reSubChar target p.1 line, p.2)
  else (line, k + 1)

/-- Apply the substitution rules of `rs` in order, threading the line and
the draw counter. -/
def applyRules (st : ℚ) (g : RandGen) :
    List (Char × List (List Char)) → List Char → ℕ → List Char × ℕ
  | [], line, k => (line, k)
  | r :: rs, line, k =>
    let p := subRule r.1 r.2 st line g k
    applyRules st g rs p.1 p.2

/-- The alphabet the word-level insertion draws from (source line 93). -/
def editAlphabet : List Char :=
  "abcdefghijklmnopqrstuvwxyz0123456789".data

/-- Word-level character edit (source lines 82-95): each word independently
fires with probability `strength`; a second draw `< 0.5` selects deletion at
`randint(0, len-1)`, otherwise insertion of a `random.choice(editAlphabet)`
character at `randint(0, len)`. -/
def editWords (st : ℚ) (g : RandGen) :
    List (List Char) → ℕ → Option (List (List Char) × ℕ)
  | [], k => some ([], k)
  | w :: rest, k =>
    if g.rand k < st then
      if g.rand (k + 1) < 1 / 2 then
        match pyRandint g (k + 2) 0 ((w.length : ℤ) - 1) with
        | none => none
        | some (idx, k2) =>
          (editWords st g rest k2).map
            (fun p => ((w.take idx.toNat ++ w.drop (idx.toNat + 1)) :: p.1, p.2))
      else
        match pyRandint g (k + 2) 0 (w.length : ℤ) with
        | none => none
        | some (idx, k2) =>
          let q := pyChoice g k2 editAlphabet
          (editWords st g rest q.2).map
            (fun p => ((w.take idx.toNat ++ q.1 :: w.drop idx.toNat) :: p.1, p.2))
    else
      (editWords st g rest (k + 1)).map (fun p => (w :: p.1, p.2))

/-- Adjacent-word swap (source lines 98-101): scan left to right; at the
first index where `random.random() < strength/10` fires, swap the pair and
stop. -/
def swapPass (st : ℚ) (g : RandGen) :
    List (List Char) → ℕ → List (List Char) × ℕ
  | [], k => ([], k)
  | [w], k => ([w], k)
  | w1 :: w2 :: rest, k =>
    if g.rand k < st / 10 then (w2 :: w1 :: rest, k + 1)
    else
      let p := swapPass st g (w2 :: rest) (k + 1)
      (w1 :: p.1, p.2)

/-- Word split (source lines 104-111): scan the words; when the gate fires on
a word shorter than 2 characters the word is skipped (`continue`), otherwise
the word is split at `randint(1, len-1)` by inserting a space and the scan
stops. -/
def splitPass (st : ℚ) (g : RandGen) :
    List (List Char) → ℕ → Option (List (List Char) × ℕ)
  | [], k => some ([], k)
  | w :: rest, k =>
    if g.rand k < st then
      if w.length < 2 then
        (splitPass st g rest (k + 1)).map (fun p => (w :: p.1, p.2))
      else
        match pyRandint g (k + 1) 1 ((w.length : ℤ) - 1) with
        | none => none
        | some (idx, k2) =>
          some ((w.take idx.toNat ++ ' ' :: w.drop idx.toNat) :: rest, k2)
    else
      (splitPass st g rest (k + 1)).map (fun p => (w :: p.1, p.2))

/-- Word join (source lines 114-118): scan adjacent pairs; at the first index
where the gate fires, concatenate the pair and stop. -/
def joinPass (st : ℚ) (g : RandGen) :
    List (List Char) → ℕ → List (List Char) × ℕ
  | [], k => ([], k)
  | [w], k => ([w], k)
  | w1 :: w2 :: rest, k =>
    if g.rand k < st then ((w1 ++ w2) :: rest, k + 1)
    else
      let p := joinPass st g (w2 :: rest) (k + 1)
      (w1 :: p.1, p.2)

/-- Word deletion (source lines 124-128): each word independently is blanked
with probability `strength/10`. -/
def removePass (st : ℚ) (g : RandGen) :
    List (List Char) → ℕ → List (List Char) × ℕ
  | [], k => ([], k)
  | w :: rest, k =>
    let w' := if g.rand k < st / 10 then ([] : List Char) else w
    let p := removePass st g rest (k + 1)
    (w' :: p.1, p.2)

/-- Process one line of `make_dirty` (source lines 16-130): substitution
rules, then tokenize, word edits, swap, split, join, re-join with single
spaces, re-tokenize, word deletion, and a final single-space join. -/
def processLine (st : ℚ) (g : RandGen) (line : List Char) (k : ℕ) :
    Option (List Char × ℕ) :=
  let p1 := applyRules st g ruleTable line k
  match editWords st g (pySplitWs p1.1) p1.2 with
  | none => none
  | some (ws2, k2) =>
    let p3 := swapPass st g ws2 k2
    match splitPass st g p3.1 p3.2 with
    | none => none
    | some (ws4, k4) =>
      let p5 := joinPass st g ws4 k4
      let p6 := removePass st g (pySplitWs (joinSpace p5.1)) p5.2
      some (joinSpace p6.1, p6.2)

/-- Process every line in order, threading the draw counter. -/
def dirtyLines (st : ℚ) (g : RandGen) :
    List (List Char) → ℕ → Option (List (List Char) × ℕ)
  | [], k => some ([], k)
  | l :: ls, k =>
    match processLine st g l k with
    | none => none
    | some (l', k') =>
      match dirtyLines st g ls k' with
      | none => none
      | some (ls', k'') => some (l' :: ls', k'')

/-- `make_dirty` with an explicit starting draw counter: split the text into
lines (terminators kept), corrupt each line, and rejoin with `'\n'`
(source lines 13-14 and 130-132). -/
def makeDirtyK (text : List Char) (st : ℚ) (g : RandGen) (k : ℕ) :
    Option (List Char × ℕ) :=
  (dirtyLines st g (pySplitlinesKeep text) k).map (fun p => (joinNl p.1, p.2))

/-- `make_dirty(text, strength)` under the oracle `g` (draw counter starts
at 0). -/
def make_dirty (text : List Char) (st : ℚ) (g : RandGen) : Option (List Char) :=
  (makeDirtyK text st g 0).map Prod.fst

/-!
Corpus generator and dataset assembler
(`generate_data_examples`, `create_json_training_file`,
`create_json_training_file_per_line`, source lines 135-205).
-/

/-- `np.linspace(a, b, n)` over `ℚ`: `n` evenly spaced values from `a` to
`b` inclusive; `n = 1` yields `[a]` (source line 136).  The severities used
by the claims (0, 1/4, 1/2, 3/4, 1) are exactly representable in binary
floating point, so `ℚ` is an exact carrier for them. -/
def npLinspace (a b : ℚ) (n : ℕ) : List ℚ :=
  if n = 0 then []
  else if n = 1 then [a]
  else (List.range n).map (fun i => a + (b - a) * (i : ℚ) / ((n : ℚ) - 1))

/-- Generate the corrupted variant texts of one document: one `make_dirty`
call per severity, in ramp order, threading the oracle's draw counter
across calls (source lines 152-158). -/
def genVariantsAux (text : List Char) (g : RandGen) :
    List ℚ → ℕ → Option (List (List Char) × ℕ)
  | [], k => some ([], k)
  | s :: ss, k =>
    match makeDirtyK text s g k with
    | none => none
    | some (v, k') =>
      match genVariantsAux text g ss k' with
      | none => none
      | some (vs, k'') => some (v :: vs, k'')

/-- The corrupted variant texts a `generate_data_examples` run writes for a
single document with ramp `npLinspace minS maxS numLevels`. -/
def generateVariantTexts (text : List Char) (numLevels : ℕ) (minS maxS : ℚ)
    (g : RandGen) : Option (List (List Char)) :=
  (genVariantsAux text g (npLinspace minS maxS numLevels) 0).map Prod.fst

/-- The variant file name `example_<i>.txt` (source line 156). -/
def exampleFileName (i : ℕ) : List Char :=
  "example_".data ++ Nat.toDigits 10 i ++ ".txt".data

/-- Pair the variant texts with their on-disk names, ordinals starting at
`i` (the source enumerates from 1). -/
def numberFiles : ℕ → List (List Char) → List (List Char × List Char)
  | _, [] => []
  | i, v :: vs => (exampleFileName i, v) :: numberFiles (i + 1) vs

/-- One `{"text": ..., "target": ...}` record of the training corpora. -/
structure TrainingExample where
  text : List Char
  target : List Char
deriving DecidableEq

instance : Inhabited TrainingExample := ⟨⟨[], []⟩⟩

/-- Python `filename.endswith(".txt")`. -/
def isTxtName (name : List Char) : Bool :=
  List.isSuffixOf ".txt".data name

/-- Document-level assembly for one reference document
(`create_json_training_file`, source lines 164-179): for each `.txt` file
found in the document's variants directory — given as (name, content)
pairs — emit one example pairing the entire variant content with the entire
original content. -/
def docLevelEntries (orig : List Char) (files : List (List Char × List Char)) :
    List TrainingExample :=
  (files.filter (fun f => isTxtName f.1)).map (fun f => { text := f.2, target := orig })

/-- Line-level assembly for one (original, variant) content pair
(`create_json_training_file_per_line`, source lines 184-202): `readlines`
both sides, `zip` them positionally, and emit one example per aligned pair
with both sides stripped. -/
def lineLevelEntries (orig dirty : List Char) : List TrainingExample :=
  List.zipWith (fun o d => { text := pyStrip d, target := pyStrip o })
    (pyReadlines orig) (pyReadlines dirty)

/-!
Derived definitions used by the claim statements.
-/

/-- The exact output shape of `make_dirty` at severity 0: every line is
word-tokenized and rejoined with single spaces (which also strips the
line's leading/trailing whitespace and its kept terminator), and the lines
are rejoined with `'\n'` — so the final line terminator of the input is
dropped. -/
def zeroNormalize (text : List Char) : List Char :=
  joinNl ((pySplitlinesKeep text).map (fun l => joinSpace (pySplitWs l)))

/-- Remove one trailing line-terminator sequence from a kept-ends line. -/
def stripOneLineEnd (l : List Char) : List Char :=
  match l.reverse with
  | '\n' :: '\r' :: rest => rest.reverse
  | c :: rest => if isLineBreak c then rest.reverse else l
  | [] => l

/-- The output the claim about severity 0 describes, taken at its word:
the input unchanged except that each line's terminator is normalized to
`'\n'` (kept when present) and whitespace between the line's words is
collapsed to single spaces. -/
def specNormalizeC1 (text : List Char) : List Char :=
  ((pySplitlinesKeep text).map (fun l =>
    joinSpace (pySplitWs (stripOneLineEnd l)) ++
      (if stripOneLineEnd l = l then [] else ['\n']))).flatten

/-- The all-zero oracle: every `random.random()` draw is 0 (a legal draw)
and every raw choice/randint draw is 0. -/
def gZero : RandGen := { rand := fun _ => 0, nat := fun _ => 0 }

/-- An oracle whose raw choice draws all pick index 2. -/
def gTwo : RandGen := { rand := fun _ => 0, nat := fun _ => 2 }

/-- The reference document of the example scenario: `"Привіт світ\n"`. -/
def sampleDocText : List Char := "Привіт світ\n".data

/-- The text actually produced for it at severity 0: the trailing newline
is dropped. -/
def sampleDocLine : List Char := "Привіт світ".data

/-!
Basic lemmas about the string primitives.
-/

theorem splitWsAux_sound (s : List Char) :
    ∀ acc, (∀ c ∈ acc, isPySpace c = false) →
      ∀ w ∈ splitWsAux s acc, w ≠ [] ∧ ∀ c ∈ w, isPySpace c = false := by
  induction s with
  | nil =>
    intro acc hacc w hw
    cases acc with
    | nil => simp [splitWsAux] at hw
    | cons a as =>
      simp [splitWsAux] at hw
      subst hw
      refine ⟨by simp, ?_⟩
      intro c hc
      rw [← List.reverse_cons] at hc
      exact hacc c (List.mem_reverse.mp hc)
  | cons c rest ih =>
    intro acc hacc w hw
    by_cases hc : isPySpace c
    · rw [splitWsAux, if_pos hc] at hw
      cases acc with
      | nil =>
        simp at hw
        exact ih [] (by simp) w hw
      | cons a as =>
        simp at hw
        rcases hw with hw | hw
        · subst hw
          refine ⟨by simp, ?_⟩
          intro x hx
          rw [← List.reverse_cons] at hx
          exact hacc x (List.mem_reverse.mp hx)
        · exact ih [] (by simp) w hw
    · rw [splitWsAux, if_neg hc] at hw
      refine ih (c :: acc) ?_ w hw
      intro x hx
      rcases List.mem_cons.mp hx with h | h
      · subst h; simpa using hc
      · exact hacc x h

theorem pySplitWs_sound (s : List Char) :
    ∀ w ∈ pySplitWs s, w ≠ [] ∧ ∀ c ∈ w, isPySpace c = false :=
  splitWsAux_sound s [] (by simp)

theorem splitWsAux_append (w : List Char) :
    ∀ (s acc : List Char), (∀ c ∈ w, isPySpace c = false) →
      splitWsAux (w ++ s) acc = splitWsAux s (w.reverse ++ acc) := by
  induction w with
  | nil => intro s acc _; simp
  | cons c w' ih =>
    intro s acc hw
    have hc : isPySpace c = false := hw c (by simp)
    rw [List.cons_append, splitWsAux, if_neg (by simp [hc])]
    rw [ih s (c :: acc) (fun x hx => hw x (by simp [hx]))]
    simp

theorem pySplitWs_joinSpace (ws : List (List Char))
    (h1 : ∀ w ∈ ws, w ≠ []) (h2 : ∀ w ∈ ws, ∀ c ∈ w, isPySpace c = false) :
    pySplitWs (joinSpace ws) = ws := by
  induction ws with
  | nil => simp [pySplitWs, joinSpace, splitWsAux]
  | cons w tail ih =>
    cases tail with
    | nil =>
      have hw : w ≠ [] := h1 w (by simp)
      have hwc : ∀ c ∈ w, isPySpace c = false := h2 w (by simp)
      have h3 := splitWsAux_append w [] [] hwc
      simp at h3
      show pySplitWs (joinSpace [w]) = [w]
      have hj : joinSpace [w] = w := rfl
      unfold pySplitWs
      rw [hj, h3, splitWsAux]
      simp [List.isEmpty_iff, hw]
    | cons w2 tl =>
      have hw : w ≠ [] := h1 w (by simp)
      have hwc : ∀ c ∈ w, isPySpace c = false := h2 w (by simp)
      have hjoin : joinSpace (w :: w2 :: tl) = w ++ ' ' :: joinSpace (w2 :: tl) := rfl
      unfold pySplitWs
      rw [hjoin, splitWsAux_append w (' ' :: joinSpace (w2 :: tl)) [] hwc]
      rw [splitWsAux, if_pos (by simp [isPySpace])]
      have hne : (w.reverse ++ []).isEmpty = false := by
        simp [List.isEmpty_iff, hw]
      rw [if_neg (by simp [List.isEmpty_iff, hw])]
      have ihx := ih (fun x hx => h1 x (by simp [hx])) (fun x hx => h2 x (by simp [hx]))
      unfold pySplitWs at ihx
      rw [ihx]
      simp

theorem mem_joinSpace {c : Char} (ws : List (List Char)) (hc : c ∈ joinSpace ws) :
    c = ' ' ∨ ∃ w ∈ ws, c ∈ w := by
  induction ws with
  | nil => simp [joinSpace] at hc
  | cons w tail ih =>
    cases tail with
    | nil =>
      right
      exact ⟨w, by simp, by simpa [joinSpace] using hc⟩
    | cons w2 tl =>
      have : c ∈ w ++ ' ' :: joinSpace (w2 :: tl) := hc
      rcases List.mem_append.mp this with h | h
      · exact Or.inr ⟨w, by simp, h⟩
      · rcases List.mem_cons.mp h with h | h
        · exact Or.inl h
        · rcases ih h with h | ⟨w', hw', hcw⟩
          · exact Or.inl h
          · exact Or.inr ⟨w', by simp [hw'], hcw⟩

theorem pySplitNl_ne_nil (s : List Char) : pySplitNl s ≠ [] := by
  induction s with
  | nil => simp [pySplitNl]
  | cons c rest ih =>
    rw [pySplitNl]
    by_cases hc : c = '\n'
    · simp [hc]
    · rw [if_neg hc]
      cases h : pySplitNl rest with
      | nil => simp
      | cons h t => simp

theorem pySplitNl_append (l : List Char) :
    ∀ (s : List Char) (h : List Char) (t : List (List Char)),
      (∀ c ∈ l, c ≠ '\n') → pySplitNl s = h :: t →
      pySplitNl (l ++ s) = (l ++ h) :: t := by
  induction l with
  | nil => intro s h t _ hs; simpa using hs
  | cons c l' ih =>
    intro s h t hl hs
    have hc : c ≠ '\n' := hl c (by simp)
    rw [List.cons_append, pySplitNl, if_neg hc,
        ih s h t (fun x hx => hl x (by simp [hx])) hs]
    rfl

theorem pySplitNl_joinNl (ls : List (List Char)) (hne : ls ≠ [])
    (hnl : ∀ l ∈ ls, ∀ c ∈ l, c ≠ '\n') :
    pySplitNl (joinNl ls) = ls := by
  induction ls with
  | nil => exact absurd rfl hne
  | cons l tail ih =>
    cases tail with
    | nil =>
      have hj : joinNl [l] = l := rfl
      rw [hj]
      have := pySplitNl_append l [] [] [] (hnl l (by simp)) (by simp [pySplitNl])
      simpa using this
    | cons l2 tl =>
      have hj : joinNl (l :: l2 :: tl) = l ++ '\n' :: joinNl (l2 :: tl) := rfl
      have ihx : pySplitNl (joinNl (l2 :: tl)) = l2 :: tl :=
        ih (by simp) (fun x hx => hnl x (by simp [hx]))
      have hstep : pySplitNl ('\n' :: joinNl (l2 :: tl)) = [] :: l2 :: tl := by
        rw [pySplitNl, if_pos rfl, ihx]
      rw [hj, pySplitNl_append l ('\n' :: joinNl (l2 :: tl)) [] (l2 :: tl)
          (hnl l (by simp)) hstep]
      simp

theorem splitlinesAux_ne_nil (s : List Char) :
    ∀ acc, s ≠ [] → splitlinesAux s acc ≠ [] := by
  induction s with
  | nil => intro acc h; exact absurd rfl h
  | cons c rest ih =>
    intro acc _
    cases rest with
    | nil =>
      rw [splitlinesAux]
      split
      · simp
      · simp
    | cons c2 rest2 =>
      rw [splitlinesAux]
      by_cases hr : c = '\r'
      · rw [if_pos hr]
        by_cases hn : c2 = '\n'
        · rw [if_pos hn]; simp
        · rw [if_neg hn]; simp
      · rw [if_neg hr]
        by_cases hb : isLineBreak c
        · rw [if_pos hb]; simp
        · rw [if_neg hb]
          exact ih (c :: acc) (by simp)

theorem pySplitlinesKeep_ne_nil (s : List Char) (h : s ≠ []) :
    pySplitlinesKeep s ≠ [] :=
  splitlinesAux_ne_nil s [] h

theorem zipWith_getD {α β γ : Type} (f : α → β → γ)
    (l1 : List α) (d1 : α) (d2 : β) (d : γ) :
    ∀ (l2 : List β) (i : ℕ), i < min l1.length l2.length →
      (List.zipWith f l1 l2).getD i d = f (l1.getD i d1) (l2.getD i d2) := by
  induction l1 with
  | nil => intro l2 i h; simp at h
  | cons a l1' ih =>
    intro l2 i h
    cases l2 with
    | nil => simp at h
    | cons b l2' =>
      cases i with
      | zero => simp
      | succ j =>
        simp only [List.zipWith_cons_cons, List.getD_cons_succ]
        exact ih l2' j (by simp at h; omega)

theorem map_getD {α β : Type} (f : α → β) (l : List α) (d : β) (d1 : α) :
    ∀ i, i < l.length → (l.map f).getD i d = f (l.getD i d1) := by
  induction l with
  | nil => intro i h; simp at h
  | cons a l' ih =>
    intro i h
    cases i with
    | zero => simp
    | succ j =>
      simp only [List.map_cons, List.getD_cons_succ]
      exact ih j (by simp at h; omega)

/-!
Zero-severity behavior: with a valid oracle every gate `random() < 0` is
false, so no rule fires and the engine only normalizes.
-/

theorem subRule_zero {g : RandGen} (h : 0 ≤ g.rand k) (t : Char)
    (cs : List (List Char)) (line : List Char) :
    subRule t cs 0 line g k = (line, k + 1) := by
  unfold subRule
  rw [if_neg (not_lt.mpr h)]

theorem applyRules_zero {g : RandGen} (hg : ValidGen g) :
    ∀ (rs : List (Char × List (List Char))) (line : List Char) (k : ℕ),
      applyRules 0 g rs line k = (line, k + rs.length) := by
  intro rs
  induction rs with
  | nil => intro line k; simp [applyRules]
  | cons r rs ih =>
    intro line k
    rw [applyRules]
    rw [subRule_zero (hg k).1]
    rw [ih]
    simp
    omega

theorem editWords_zero {g : RandGen} (hg : ValidGen g) :
    ∀ (ws : List (List Char)) (k : ℕ),
      editWords 0 g ws k = some (ws, k + ws.length) := by
  intro ws
  induction ws with
  | nil => intro k; simp [editWords]
  | cons w rest ih =>
    intro k
    rw [editWords, if_neg (not_lt.mpr (hg k).1), ih]
    simp
    omega

theorem swapPass_zero {g : RandGen} (hg : ValidGen g) :
    ∀ (ws : List (List Char)) (k : ℕ), ∃ k', swapPass 0 g ws k = (ws, k') := by
  intro ws
  induction ws with
  | nil => intro k; exact ⟨k, rfl⟩
  | cons w tail ih =>
    intro k
    cases tail with
    | nil => exact ⟨k, rfl⟩
    | cons w2 tl =>
      have hgate : ¬ g.rand k < 0 / 10 := by
        rw [zero_div]; exact not_lt.mpr (hg k).1
      obtain ⟨k', hk'⟩ := ih (k + 1)
      refine ⟨k', ?_⟩
      rw [swapPass, if_neg hgate, hk']

theorem splitPass_zero {g : RandGen} (hg : ValidGen g) :
    ∀ (ws : List (List Char)) (k : ℕ), ∃ k', splitPass 0 g ws k = some (ws, k') := by
  intro ws
  induction ws with
  | nil => intro k; exact ⟨k, rfl⟩
  | cons w tail ih =>
    intro k
    obtain ⟨k', hk'⟩ := ih (k + 1)
    refine ⟨k', ?_⟩
    rw [splitPass, if_neg (not_lt.mpr (hg k).1), hk']
    rfl

theorem joinPass_zero {g : RandGen} (hg : ValidGen g) :
    ∀ (ws : List (List Char)) (k : ℕ), ∃ k', joinPass 0 g ws k = (ws, k') := by
  intro ws
  induction ws with
  | nil => intro k; exact ⟨k, rfl⟩
  | cons w tail ih =>
    intro k
    cases tail with
    | nil => exact ⟨k, rfl⟩
    | cons w2 tl =>
      obtain ⟨k', hk'⟩ := ih (k + 1)
      refine ⟨k', ?_⟩
      rw [joinPass, if_neg (not_lt.mpr (hg k).1), hk']

theorem removePass_zero {g : RandGen} (hg : ValidGen g) :
    ∀ (ws : List (List Char)) (k : ℕ), ∃ k', removePass 0 g ws k = (ws, k') := by
  intro ws
  induction ws with
  | nil => intro k; exact ⟨k, rfl⟩
  | cons w tail ih =>
    intro k
    have hgate : ¬ g.rand k < 0 / 10 := by
      rw [zero_div]; exact not_lt.mpr (hg k).1
    obtain ⟨k', hk'⟩ := ih (k + 1)
    refine ⟨k', ?_⟩
    rw [removePass, if_neg hgate, hk']

theorem processLine_zero {g : RandGen} (hg : ValidGen g) (line : List Char) (k : ℕ) :
    ∃ k', processLine 0 g line k = some (joinSpace (pySplitWs line), k') := by
  have hr := applyRules_zero hg ruleTable line k
  have he := editWords_zero hg (pySplitWs line) (k + ruleTable.length)
  obtain ⟨k3, hs⟩ := swapPass_zero hg (pySplitWs line)
      (k + ruleTable.length + (pySplitWs line).length)
  obtain ⟨k4, hsp⟩ := splitPass_zero hg (pySplitWs line) k3
  obtain ⟨k5, hj⟩ := joinPass_zero hg (pySplitWs line) k4
  have hresplit : pySplitWs (joinSpace (pySplitWs line)) = pySplitWs line :=
    pySplitWs_joinSpace (pySplitWs line)
      (fun w hw => (pySplitWs_sound line w hw).1)
      (fun w hw => (pySplitWs_sound line w hw).2)
  obtain ⟨k6, hrm⟩ := removePass_zero hg (pySplitWs line) k5
  refine ⟨k6, ?_⟩
  unfold processLine
  rw [hr]
  simp only
  rw [he]
  simp only
  rw [hs]
  simp only
  rw [hsp]
  simp only
  rw [hj]
  simp only
  rw [hresplit, hrm]

theorem dirtyLines_zero {g : RandGen} (hg : ValidGen g) :
    ∀ (ls : List (List Char)) (k : ℕ),
      ∃ k', dirtyLines 0 g ls k =
        some (ls.map (fun l => joinSpace (pySplitWs l)), k') := by
  intro ls
  induction ls with
  | nil => intro k; exact ⟨k, rfl⟩
  | cons l tail ih =>
    intro k
    obtain ⟨k1, h1⟩ := processLine_zero hg l k
    obtain ⟨k2, h2⟩ := ih k1
    refine ⟨k2, ?_⟩
    rw [dirtyLines, h1]
    simp only
    rw [h2]
    rfl

theorem makeDirtyK_zero {g : RandGen} (hg : ValidGen g) (text : List Char) (k : ℕ) :
    ∃ k', makeDirtyK text 0 g k = some (zeroNormalize text, k') := by
  obtain ⟨k', h⟩ := dirtyLines_zero hg (pySplitlinesKeep text) k
  refine ⟨k', ?_⟩
  unfold makeDirtyK zeroNormalize
  rw [h]
  rfl

theorem make_dirty_zero {g : RandGen} (hg : ValidGen g) (text : List Char) :
    make_dirty text 0 g = some (zeroNormalize text) := by
  obtain ⟨k', h⟩ := makeDirtyK_zero hg text 0
  unfold make_dirty
  rw [h]
  rfl

/-!
Totality: `make_dirty` never hits an invalid `randint` range, for every
input, severity and oracle.
-/

theorem editWords_isSome (st : ℚ) (g : RandGen) :
    ∀ (ws : List (List Char)), (∀ w ∈ ws, w ≠ []) → ∀ k,
      (editWords st g ws k).isSome = true := by
  intro ws
  induction ws with
  | nil => intro _ k; rfl
  | cons w rest ih =>
    intro hws k
    have hrest : ∀ x ∈ rest, x ≠ [] := fun x hx => hws x (by simp [hx])
    have hwne : w ≠ [] := hws w (by simp)
    have hlen : 1 ≤ w.length := List.length_pos.mpr hwne
    rw [editWords]
    by_cases h1 : g.rand k < st
    · rw [if_pos h1]
      by_cases h2 : g.rand (k + 1) < 1 / 2
      · rw [if_pos h2]
        cases hri : pyRandint g (k + 2) 0 ((w.length : ℤ) - 1) with
        | none =>
          unfold pyRandint at hri
          rw [if_neg (by omega)] at hri
          simp at hri
        | some p =>
          cases p with
          | mk idx k2 =>
            simp only
            obtain ⟨q, hq⟩ := Option.isSome_iff_exists.mp (ih hrest k2)
            rw [hq]
            rfl
      · rw [if_neg h2]
        cases hri : pyRandint g (k + 2) 0 (w.length : ℤ) with
        | none =>
          unfold pyRandint at hri
          rw [if_neg (by omega)] at hri
          simp at hri
        | some p =>
          cases p with
          | mk idx k2 =>
            simp only
            obtain ⟨q, hq⟩ := Option.isSome_iff_exists.mp (ih hrest (pyChoice g k2 editAlphabet).2)
            rw [hq]
            rfl
    · rw [if_neg h1]
      obtain ⟨q, hq⟩ := Option.isSome_iff_exists.mp (ih hrest (k + 1))
      rw [hq]
      rfl

theorem splitPass_isSome (st : ℚ) (g : RandGen) :
    ∀ (ws : List (List Char)) (k : ℕ), (splitPass st g ws k).isSome = true := by
  intro ws
  induction ws with
  | nil => intro k; rfl
  | cons w rest ih =>
    intro k
    rw [splitPass]
    by_cases h1 : g.rand k < st
    · rw [if_pos h1]
      by_cases h2 : w.length < 2
      · rw [if_pos h2]
        obtain ⟨q, hq⟩ := Option.isSome_iff_exists.mp (ih (k + 1))
        rw [hq]
        rfl
      · rw [if_neg h2]
        cases hri : pyRandint g (k + 1) 1 ((w.length : ℤ) - 1) with
        | none =>
          unfold pyRandint at hri
          rw [if_neg (by omega)] at hri
          simp at hri
        | some p =>
          cases p with
          | mk idx k2 => rfl
    · rw [if_neg h1]
      obtain ⟨q, hq⟩ := Option.isSome_iff_exists.mp (ih (k + 1))
      rw [hq]
      rfl

theorem processLine_isSome (st : ℚ) (g : RandGen) (line : List Char) (k : ℕ) :
    (processLine st g line k).isSome = true := by
  simp only [processLine]
  obtain ⟨⟨ws2, k2⟩, h2⟩ := Option.isSome_iff_exists.mp
    (editWords_isSome st g (pySplitWs (applyRules st g ruleTable line k).1)
      (fun w hw => (pySplitWs_sound _ w hw).1)
      (applyRules st g ruleTable line k).2)
  rw [h2]
  simp only
  obtain ⟨⟨ws4, k4⟩, h4⟩ := Option.isSome_iff_exists.mp
    (splitPass_isSome st g (swapPass st g ws2 k2).1 (swapPass st g ws2 k2).2)
  rw [h4]
  rfl

theorem dirtyLines_isSome (st : ℚ) (g : RandGen) :
    ∀ (ls : List (List Char)) (k : ℕ), (dirtyLines st g ls k).isSome = true := by
  intro ls
  induction ls with
  | nil => intro k; rfl
  | cons l tail ih =>
    intro k
    rw [dirtyLines]
    obtain ⟨⟨l', k'⟩, h1⟩ := Option.isSome_iff_exists.mp (processLine_isSome st g l k)
    rw [h1]
    simp only
    obtain ⟨⟨ls', k''⟩, h2⟩ := Option.isSome_iff_exists.mp (ih k')
    rw [h2]
    rfl

/-!
Line-structure invariance: a processed line never contains `'\n'`, and one
output line is produced per input line.
-/

theorem removePass_mem (st : ℚ) (g : RandGen) :
    ∀ (ws : List (List Char)) (k : ℕ) (w : List Char),
      w ∈ (removePass st g ws k).1 → w = [] ∨ w ∈ ws := by
  intro ws
  induction ws with
  | nil => intro k w hw; simp [removePass] at hw
  | cons w0 rest ih =>
    intro k w hw
    simp only [removePass] at hw
    rcases List.mem_cons.mp hw with h | h
    · by_cases hg : g.rand k < st / 10
      · rw [if_pos hg] at h; exact Or.inl h
      · rw [if_neg hg] at h; exact Or.inr (by simp [h])
    · rcases ih (k + 1) w h with h | h
      · exact Or.inl h
      · exact Or.inr (by simp [h])

theorem processLine_no_newline (st : ℚ) (g : RandGen) (line : List Char)
    (k k' : ℕ) (res : List Char)
    (h : processLine st g line k = some (res, k')) :
    ∀ c ∈ res, c ≠ '\n' := by
  simp only [processLine] at h
  cases hE : editWords st g (pySplitWs (applyRules st g ruleTable line k).1)
      (applyRules st g ruleTable line k).2 with
  | none => rw [hE] at h; simp at h
  | some p2 =>
    cases p2 with
    | mk ws2 k2 =>
      rw [hE] at h
      simp only at h
      cases hS : splitPass st g (swapPass st g ws2 k2).1 (swapPass st g ws2 k2).2 with
      | none => rw [hS] at h; simp at h
      | some p4 =>
        cases p4 with
        | mk ws4 k4 =>
          rw [hS] at h
          simp only at h
          have hres : res = joinSpace (removePass st g
              (pySplitWs (joinSpace (joinPass st g ws4 k4).1))
              (joinPass st g ws4 k4).2).1 := by
            have := (Option.some.injEq _ _).mp h
            exact (Prod.mk.injEq _ _ _ _).mp this |>.1.symm
          intro c hc
          rw [hres] at hc
          rcases mem_joinSpace _ hc with h' | ⟨w, hw, hcw⟩
          · subst h'; decide
          · rcases removePass_mem st g _ _ w hw with h' | h'
            · subst h'; simp at hcw
            · have hns := (pySplitWs_sound _ w h').2 c hcw
              intro hcn
              rw [hcn] at hns
              simp [isPySpace] at hns

theorem dirtyLines_shape (st : ℚ) (g : RandGen) :
    ∀ (ls : List (List Char)) (k : ℕ) (ls' : List (List Char)) (k' : ℕ),
      dirtyLines st g ls k = some (ls', k') →
      ls'.length = ls.length ∧ ∀ l' ∈ ls', ∀ c ∈ l', c ≠ '\n' := by
  intro ls
  induction ls with
  | nil =>
    intro k ls' k' h
    rw [dirtyLines] at h
    have : ls' = [] := by
      have := (Option.some.injEq _ _).mp h
      exact ((Prod.mk.injEq _ _ _ _).mp this).1.symm
    subst this
    simp
  | cons l tail ih =>
    intro k ls' k' h
    rw [dirtyLines] at h
    cases hP : processLine st g l k with
    | none => rw [hP] at h; simp at h
    | some p1 =>
      cases p1 with
      | mk l1 k1 =>
        rw [hP] at h
        simp only at h
        cases hT : dirtyLines st g tail k1 with
        | none => rw [hT] at h; simp at h
        | some p2 =>
          cases p2 with
          | mk ls2 k2 =>
            rw [hT] at h
            simp only at h
            have hinj := (Option.some.injEq _ _).mp h
            have h1 : l1 :: ls2 = ls' := ((Prod.mk.injEq _ _ _ _).mp hinj).1
            obtain ⟨hlen, hnl⟩ := ih k1 ls2 k2 hT
            subst h1
            constructor
            · simp [hlen]
            · intro l' hl'
              rcases List.mem_cons.mp hl' with h' | h'
              · subst h'
                exact processLine_no_newline st g l k k1 l' hP
              · exact hnl l' h'

/-!
Behavior of a fired substitution rule.
-/

theorem subRule_fire (target : Char) (cands : List (List Char)) (st : ℚ)
    (line : List Char) (g : RandGen) (k : ℕ)
    (hc : cands ≠ []) (hf : g.rand k < st) :
    ∃ repl ∈ cands, subRule target cands st line g k =
      (line.flatMap (fun c => if c = target then repl else [c]), k + 2) := by
  have hlt : g.nat (k + 1) % cands.length < cands.length :=
    Nat.mod_lt _ (List.length_pos.mpr hc)
  refine ⟨cands.getD (g.nat (k + 1) % cands.length) default, ?_, ?_⟩
  · rw [List.getD_eq_getElem _ _ hlt]
    exact List.getElem_mem hlt
  · unfold subRule pyChoice reSubChar
    rw [if_pos hf]

/-!
The claims.
-/

/-- Claim C4: for every line and every character-substitution rule that
fires on it, exactly one candidate is drawn (the choice draw right after
the gate draw picks an index into the candidate set) and every occurrence
of the rule's target in the line is replaced by that same single
candidate — not independently per occurrence. -/
theorem claim_C4 (target : Char) (cands : List (List Char)) (st : ℚ)
    (line : List Char) (g : RandGen) (k : ℕ)
    (hc : cands ≠ []) (hf : g.rand k < st) :
    ∃ repl ∈ cands, subRule target cands st line g k =
      (line.flatMap (fun c => if c = target then repl else [c]), k + 2) :=
  subRule_fire target cands st line g k hc hf

/-- Witness for C4: the `0`-rule fired on `"a0"` with the all-zero oracle. -/
theorem claim_C4_witness :
    ((["0", "O", "o"].map String.data : List (List Char)) ≠ [] ∧ gZero.rand 0 < 1)
    ∧ ∃ repl ∈ (["0", "O", "o"].map String.data : List (List Char)),
        subRule '0' (["0", "O", "o"].map String.data) 1 "a0".data gZero 0 =
          ("a0".data.flatMap (fun c => if c = '0' then repl else [c]), 0 + 2) :=
  ⟨⟨by decide, by decide⟩,
    claim_C4 '0' (["0", "O", "o"].map String.data) 1 "a0".data gZero 0
      (by decide) (by decide)⟩

/-- Claim C2 (amended): the rule table pairs the listed candidate sets with
these targets — which, from the fifth rule on, are the Cyrillic letters
і (U+0456), о (U+043E), е (U+0435), а (U+0430), з (U+0437), т (U+0442),
я (U+044F), в (U+0432), і (U+0456), not the ASCII letters the claim lists —
and for every line on which a rule of the table fires, it is the
occurrences of the Cyrillic target that are replaced by a single drawn
candidate from the listed set. -/
theorem claim_C2 :
    ruleTable.map Prod.fst =
      ['№', '0', '1', '2', 'і', 'о', 'е', 'а', 'з', 'т', 'я', 'в', 'і']
    ∧ ruleTable.map Prod.snd =
      [["N", "N°", "Nº", "Ме", "Не", "Ле", "Н", "Но", "Ло", "Мо", "№"].map String.data,
       ["0", "O", "o"].map String.data,
       ["1", "I", "l", "i"].map String.data,
       ["2", "Z", "z"].map String.data,
       ["i", "I", "l", "1"].map String.data,
       ["o", "O", "0"].map String.data,
       ["e", "E", "3"].map String.data,
       ["a", "A", "4"].map String.data,
       ["s", "S", "5"].map String.data,
       ["t", "T", "7"].map String.data,
       ["g", "G", "9"].map String.data,
       ["b", "B", "8"].map String.data,
       ["l", "L", "1"].map String.data]
    ∧ ∀ (t : Char) (cs : List (List Char)) (st : ℚ) (line : List Char)
        (g : RandGen) (k : ℕ), (t, cs) ∈ ruleTable → g.rand k < st →
        ∃ repl ∈ cs, subRule t cs st line g k =
          (line.flatMap (fun c => if c = t then repl else [c]), k + 2) := by
  refine ⟨by decide, by decide, ?_⟩
  intro t cs st line g k hmem hf
  have hne : cs ≠ [] := by
    have hall : ∀ p ∈ ruleTable, p.2 ≠ ([] : List (List Char)) := by decide
    exact hall (t, cs) hmem
  exact subRule_fire t cs st line g k hne hf

/-- Counterexample to C2 as stated: the ninth rule's target is the
Cyrillic letter `з`, not `s`; when the rule fires (here drawing the
candidate `"5"`), a line consisting of the ASCII letter `s` is left
unchanged, although the claim says the occurrences of `s` are replaced
by the drawn candidate. -/
theorem claim_C2_counterexample :
    (ruleTable.getD 8 default).1 = 'з' ∧ ('з' : Char) ≠ 's'
    ∧ (subRule 'з' (ruleTable.getD 8 default).2 1 "s".data gTwo 0).1 = "s".data
    ∧ (subRule 'з' (ruleTable.getD 8 default).2 1 "з".data gTwo 0).1 = "5".data
    ∧ "s".data ≠ "5".data := by
  decide

/-- Witness for C2: the `т`-rule of the table fired on `"тест"`. -/
theorem claim_C2_witness :
    (('т', (["t", "T", "7"].map String.data : List (List Char))) ∈ ruleTable
      ∧ gTwo.rand 0 < 1)
    ∧ ∃ repl ∈ (["t", "T", "7"].map String.data : List (List Char)),
        subRule 'т' (["t", "T", "7"].map String.data) 1 "тест".data gTwo 0 =
          ("тест".data.flatMap (fun c => if c = 'т' then repl else [c]), 0 + 2) :=
  ⟨⟨by decide, by decide⟩,
    claim_C2.2.2 'т' (["t", "T", "7"].map String.data) 1 "тест".data gTwo 0
      (by decide) (by decide)⟩

/-- Claim C7: `make_dirty` never raises, for every input text, severity and
oracle: the deletion branch only ever receives non-empty words (whitespace
tokenization yields no empty token), and the split rule only draws its
`randint(1, len-1)` for words of length at least 2, so every `randint`
range is valid and the model never returns `none`. -/
theorem claim_C7 (text : List Char) (st : ℚ) (g : RandGen) :
    (make_dirty text st g).isSome = true := by
  unfold make_dirty makeDirtyK
  obtain ⟨⟨ls', k'⟩, h⟩ := Option.isSome_iff_exists.mp
    (dirtyLines_isSome st g (pySplitlinesKeep text) 0)
  rw [h]
  rfl

/-- Claim C8: the severity ramp is `numLevels` evenly spaced values from
`minSeverity` to `maxSeverity` inclusive: five levels over `[0, 1]` give
`[0, 1/4, 1/2, 3/4, 1]`, and one level gives `[minSeverity]`. -/
theorem claim_C8 :
    npLinspace 0 1 5 = [0, 1/4, 1/2, 3/4, 1]
    ∧ ∀ a b : ℚ, npLinspace a b 1 = [a] := by
  constructor
  · unfold npLinspace
    norm_num
    rw [show List.range 5 = [0, 1, 2, 3, 4] from rfl]
    simp [List.map]
    norm_num
  · intro a b
    simp [npLinspace]

theorem validGen_gZero : ValidGen gZero :=
  fun _ => ⟨le_refl 0, by norm_num [gZero]⟩

theorem npLinspace_zero3 : npLinspace 0 0 3 = [0, 0, 0] := by
  unfold npLinspace
  norm_num
  rw [show List.range 3 = [0, 1, 2] from rfl]
  simp

theorem generateVariantTexts_zero_sample {g : RandGen} (hg : ValidGen g) :
    generateVariantTexts sampleDocText 3 0 0 g =
      some [sampleDocLine, sampleDocLine, sampleDocLine] := by
  unfold generateVariantTexts
  rw [npLinspace_zero3]
  obtain ⟨k1, h1⟩ := makeDirtyK_zero hg sampleDocText 0
  obtain ⟨k2, h2⟩ := makeDirtyK_zero hg sampleDocText k1
  obtain ⟨k3, h3⟩ := makeDirtyK_zero hg sampleDocText k2
  have hz : zeroNormalize sampleDocText = sampleDocLine := by decide
  rw [genVariantsAux, h1]
  simp only
  rw [genVariantsAux, h2]
  simp only
  rw [genVariantsAux, h3]
  simp only
  rw [genVariantsAux]
  simp only
  rw [hz]
  rfl

/-- Claim C1 (amended): at severity exactly 0 no gate fires (each compares
a non-negative draw against 0), and the output is
`'\n'.join(' '.join(line.split()) for line in text.splitlines())`: word
joins are single-spaced — which also strips each line's leading and
trailing whitespace — and the rejoin with `'\n'` drops the input's final
line terminator. -/
theorem claim_C1 (text : List Char) (g : RandGen) (hg : ValidGen g) :
    make_dirty text 0 g = some (zeroNormalize text) :=
  make_dirty_zero hg text

/-- Counterexample to C1 as stated: on the input `"a\n"` the claimed
output — the input unchanged, since its ending is already `'\n'` and it
has no whitespace between words — is `"a\n"`, but `make_dirty` at
severity 0 returns `"a"`: the trailing newline is dropped. -/
theorem claim_C1_counterexample :
    make_dirty "a\n".data 0 gZero = some "a".data
    ∧ specNormalizeC1 "a\n".data = "a\n".data
    ∧ "a".data ≠ "a\n".data := by
  refine ⟨?_, by decide, by decide⟩
  rw [make_dirty_zero validGen_gZero]
  decide

/-- Witness for C1: the all-zero oracle on a two-line input with irregular
spacing. -/
theorem claim_C1_witness :
    ValidGen gZero
    ∧ make_dirty "ab  c\nd\n".data 0 gZero = some (zeroNormalize "ab  c\nd\n".data)
    ∧ zeroNormalize "ab  c\nd\n".data = "ab c\nd".data :=
  ⟨validGen_gZero, claim_C1 "ab  c\nd\n".data gZero validGen_gZero, by decide⟩

/-- Claim C3 (amended): generating from a document `"Привіт світ\n"` with
`numLevels = 3` and `minSeverity = maxSeverity = 0` produces 3 variants
each byte-identical to `"Привіт світ"` — the severity-0 engine drops the
trailing newline rather than keeping it — and the document-level corpus
built from the three variant files has exactly 3 entries whose text and
target both equal `"Привіт світ"` after trimming. -/
theorem claim_C3 (g : RandGen) (hg : ValidGen g) :
    generateVariantTexts sampleDocText 3 0 0 g =
      some [sampleDocLine, sampleDocLine, sampleDocLine]
    ∧ (docLevelEntries sampleDocText
        (numberFiles 1 [sampleDocLine, sampleDocLine, sampleDocLine])).length = 3
    ∧ ∀ e ∈ docLevelEntries sampleDocText
        (numberFiles 1 [sampleDocLine, sampleDocLine, sampleDocLine]),
        pyStrip e.text = sampleDocLine ∧ pyStrip e.target = sampleDocLine :=
  ⟨generateVariantTexts_zero_sample hg, by decide, by decide⟩

/-- Counterexample to C3 as stated: each variant is `"Привіт світ"`, which
is not byte-identical to the (already `\n`-normalized) reference content
`"Привіт світ\n"`. -/
theorem claim_C3_counterexample :
    generateVariantTexts sampleDocText 3 0 0 gZero =
      some [sampleDocLine, sampleDocLine, sampleDocLine]
    ∧ sampleDocLine ≠ sampleDocText :=
  ⟨generateVariantTexts_zero_sample validGen_gZero, by decide⟩

/-- Witness for C3: the all-zero oracle. -/
theorem claim_C3_witness :
    ValidGen gZero
    ∧ (generateVariantTexts sampleDocText 3 0 0 gZero =
        some [sampleDocLine, sampleDocLine, sampleDocLine]
      ∧ (docLevelEntries sampleDocText
          (numberFiles 1 [sampleDocLine, sampleDocLine, sampleDocLine])).length = 3
      ∧ ∀ e ∈ docLevelEntries sampleDocText
          (numberFiles 1 [sampleDocLine, sampleDocLine, sampleDocLine]),
          pyStrip e.text = sampleDocLine ∧ pyStrip e.target = sampleDocLine) :=
  ⟨validGen_gZero, claim_C3 gZero validGen_gZero⟩

/-- Claim C6: line-level assembly pairs original and variant lines
positionally and stops at the shorter side (the zip is total, so no error
is possible): the entry count is the minimum of the two line counts —
equal counts K give exactly K examples, unequal counts silently drop the
longer side's tail — and the i-th entry has text the trimmed i-th variant
line and target the trimmed i-th original line. -/
theorem claim_C6 (orig dirty : List Char) :
    (lineLevelEntries orig dirty).length =
      min (pyReadlines orig).length (pyReadlines dirty).length
    ∧ ∀ i, i < (lineLevelEntries orig dirty).length →
        (lineLevelEntries orig dirty).getD i default =
          { text := pyStrip ((pyReadlines dirty).getD i []),
            target := pyStrip ((pyReadlines orig).getD i []) } := by
  constructor
  · unfold lineLevelEntries
    exact List.length_zipWith _ _ _
  · intro i hi
    unfold lineLevelEntries at hi ⊢
    have hlen : i < min (pyReadlines orig).length (pyReadlines dirty).length := by
      rwa [List.length_zipWith] at hi
    exact zipWith_getD _ _ [] [] default _ i hlen

/-- Witness for C6: a three-line original zipped with a two-line variant
yields exactly two entries, the first pairing the stripped first lines. -/
theorem claim_C6_witness :
    (0 < (lineLevelEntries "a\nb\nc\n".data "x\ny".data).length)
    ∧ (lineLevelEntries "a\nb\nc\n".data "x\ny".data).length =
        min (pyReadlines "a\nb\nc\n".data).length (pyReadlines "x\ny".data).length
    ∧ (lineLevelEntries "a\nb\nc\n".data "x\ny".data).getD 0 default =
        { text := pyStrip ((pyReadlines "x\ny".data).getD 0 []),
          target := pyStrip ((pyReadlines "a\nb\nc\n".data).getD 0 []) } :=
  ⟨by decide, (claim_C6 "a\nb\nc\n".data "x\ny".data).1,
    (claim_C6 "a\nb\nc\n".data "x\ny".data).2 0 (by decide)⟩

/-- Claim C9: document-level assembly emits exactly one example per `.txt`
variant file found for the document, pairing the entire variant content
(text) with the entire original content (target). -/
theorem claim_C9 (orig : List Char) (files : List (List Char × List Char)) :
    (docLevelEntries orig files).length =
      (files.filter (fun f => isTxtName f.1)).length
    ∧ ∀ i, i < (docLevelEntries orig files).length →
        (docLevelEntries orig files).getD i default =
          { text := ((files.filter (fun f => isTxtName f.1)).getD i default).2,
            target := orig } := by
  constructor
  · unfold docLevelEntries
    exact List.length_map _ _
  · intro i hi
    unfold docLevelEntries at hi ⊢
    have hlen : i < (files.filter (fun f => isTxtName f.1)).length := by
      rwa [List.length_map] at hi
    exact map_getD _ _ default default i hlen

/-- Witness for C9: two of three files end in `.txt`, so two entries are
emitted; the second pairs the second `.txt` file's content with the
original. -/
theorem claim_C9_witness :
    (1 < (docLevelEntries "orig".data
        [("a.txt".data, "X".data), ("b.png".data, "Y".data),
         ("c.txt".data, "Z".data)]).length)
    ∧ (docLevelEntries "orig".data
        [("a.txt".data, "X".data), ("b.png".data, "Y".data),
         ("c.txt".data, "Z".data)]).length = 2
    ∧ (docLevelEntries "orig".data
        [("a.txt".data, "X".data), ("b.png".data, "Y".data),
         ("c.txt".data, "Z".data)]).getD 1 default =
        { text := "Z".data, target := "orig".data } := by
  have h := claim_C9 "orig".data
    [("a.txt".data, "X".data), ("b.png".data, "Y".data), ("c.txt".data, "Z".data)]
  refine ⟨by decide, by decide, ?_⟩
  rw [h.2 1 (by decide)]
  decide

/-- Claim C10: for every non-empty input and every severity and oracle, the
output of `make_dirty` has exactly as many lines (splitting on `'\n'`) as
the input has under `splitlines`: no rule can create or destroy a line
boundary. -/
theorem claim_C10 (text : List Char) (st : ℚ) (g : RandGen) (out : List Char)
    (hne : text ≠ []) (h : make_dirty text st g = some out) :
    (pySplitNl out).length = (pySplitlinesKeep text).length := by
  unfold make_dirty makeDirtyK at h
  cases hD : dirtyLines st g (pySplitlinesKeep text) 0 with
  | none => rw [hD] at h; simp at h
  | some p =>
    cases p with
    | mk ls' k' =>
      rw [hD] at h
      simp at h
      obtain ⟨hlen, hnl⟩ := dirtyLines_shape st g _ 0 ls' k' hD
      have hpos : 0 < (pySplitlinesKeep text).length :=
        List.length_pos.mpr (pySplitlinesKeep_ne_nil text hne)
      rw [← hlen] at hpos
      have hlsne : ls' ≠ [] := List.length_pos.mp hpos
      rw [← h, pySplitNl_joinNl ls' hlsne hnl, hlen]

/-- Witness for C10: a two-line input at severity 0. -/
theorem claim_C10_witness :
    ("a\nb".data ≠ ([] : List Char))
    ∧ make_dirty "a\nb".data 0 gZero = some "a\nb".data
    ∧ (pySplitNl "a\nb".data).length = (pySplitlinesKeep "a\nb".data).length := by
  have hMD : make_dirty "a\nb".data 0 gZero = some "a\nb".data := by
    rw [make_dirty_zero validGen_gZero]
    decide
  exact ⟨by decide, hMD, claim_C10 "a\nb".data 0 gZero "a\nb".data (by decide) hMD⟩

theorem pyRandint_zeroTo (g : RandGen) (k : ℕ) (n : ℕ) (hn : n ≠ 0) :
    pyRandint g k 0 ((n : ℤ) - 1) = some (((g.nat k % n : ℕ) : ℤ), k + 1) := by
  unfold pyRandint
  rw [if_neg (by omega)]
  have h1 : (n : ℤ) - 1 - 0 + 1 = (n : ℤ) := by ring
  rw [h1]
  have h2 : ((g.nat k % n : ℕ) : ℤ) = (g.nat k : ℤ) % (n : ℤ) := by
    push_cast
    rfl
  rw [← h2, zero_add]

theorem pyRandint_zeroToIncl (g : RandGen) (k : ℕ) (n : ℕ) :
    pyRandint g k 0 (n : ℤ) = some (((g.nat k % (n + 1) : ℕ) : ℤ), k + 1) := by
  unfold pyRandint
  rw [if_neg (by omega)]
  have h1 : (n : ℤ) - 0 + 1 = ((n + 1 : ℕ) : ℤ) := by push_cast; ring
  rw [h1]
  have h2 : ((g.nat k % (n + 1) : ℕ) : ℤ) = (g.nat k : ℤ) % ((n + 1 : ℕ) : ℤ) := by
    push_cast
    rfl
  rw [← h2, zero_add]

/-- Claim C5: in the word-level edit each word of the tokenized line is
gated independently by its own draw against the severity; on fire, a draw
below 1/2 deletes the character at the uniform position
`nat (k+2) % len ∈ [0, len-1]`, and otherwise one character drawn
uniformly from the 36-character alphabet `a-z0-9` is inserted at the
uniform position `nat (k+2) % (len+1) ∈ [0, len]`. -/
theorem claim_C5 (st : ℚ) (w : List Char) (rest : List (List Char))
    (g : RandGen) (k : ℕ) (hw : w ≠ []) :
    (¬ g.rand k < st →
      editWords st g (w :: rest) k =
        (editWords st g rest (k + 1)).map (fun p => (w :: p.1, p.2)))
    ∧ (g.rand k < st → g.rand (k + 1) < 1 / 2 →
      ∃ i, i = g.nat (k + 2) % w.length ∧ i < w.length ∧
        editWords st g (w :: rest) k =
          (editWords st g rest (k + 3)).map
            (fun p => ((w.take i ++ w.drop (i + 1)) :: p.1, p.2)))
    ∧ (g.rand k < st → ¬ g.rand (k + 1) < 1 / 2 →
      ∃ j c, j = g.nat (k + 2) % (w.length + 1) ∧ j ≤ w.length ∧
        c = editAlphabet.getD (g.nat (k + 3) % editAlphabet.length) default ∧
        c ∈ editAlphabet ∧
        editWords st g (w :: rest) k =
          (editWords st g rest (k + 4)).map
            (fun p => ((w.take j ++ c :: w.drop j) :: p.1, p.2))) := by
  have hn : w.length ≠ 0 := fun hx => hw (List.length_eq_zero.mp hx)
  refine ⟨?_, ?_, ?_⟩
  · intro h1
    rw [editWords, if_neg h1]
  · intro h1 h2
    refine ⟨g.nat (k + 2) % w.length, rfl,
      Nat.mod_lt _ (Nat.pos_of_ne_zero hn), ?_⟩
    rw [editWords, if_pos h1, if_pos h2, pyRandint_zeroTo g (k + 2) w.length hn]
    simp only [Int.toNat_natCast]
  · intro h1 h2
    refine ⟨g.nat (k + 2) % (w.length + 1),
      editAlphabet.getD (g.nat (k + 3) % editAlphabet.length) default,
      rfl, ?_, rfl, ?_, ?_⟩
    · have := Nat.mod_lt (g.nat (k + 2)) (show 0 < w.length + 1 by omega)
      omega
    · have hlt : g.nat (k + 3) % editAlphabet.length < editAlphabet.length :=
        Nat.mod_lt _ (by decide)
      rw [List.getD_eq_getElem _ _ hlt]
      exact List.getElem_mem hlt
    · rw [editWords, if_pos h1, if_neg h2, pyRandint_zeroToIncl g (k + 2) w.length]
      simp only [pyChoice, Int.toNat_natCast]

/-- Witness for C5: on the word `"ab"` with the all-zero oracle the gate
fires, the second draw selects deletion, and position 0 is removed. -/
theorem claim_C5_witness :
    ("ab".data ≠ ([] : List Char)) ∧ gZero.rand 0 < 1 ∧ gZero.rand 1 < 1 / 2
    ∧ editWords 1 gZero ["ab".data] 0 = some (["b".data], 3) := by
  have hgate : gZero.rand 0 < 1 := by norm_num [gZero]
  have hhalf : gZero.rand 1 < 1 / 2 := by norm_num [gZero]
  obtain ⟨i, hi, hlt, heq⟩ :=
    (claim_C5 1 "ab".data [] gZero 0 (by decide)).2.1 hgate hhalf
  subst hi
  refine ⟨by decide, hgate, hhalf, ?_⟩
  rw [heq]
  decide
